import Mathlib

/-!
# Verification of the `memory-allocators` free-list engines

Shallow embedding of the three free-list allocator variants of the
repository:

* `src/free-list/free_list1.c` — singly-chained (address-order) list with
  bit-packed headers, best-fit, splitting, forward-only coalescing
  (namespace `FL1`);
* `src/free-list/explicit_free_list.c` — doubly-linked explicit free list,
  best-fit, splitting, coalescing with the former list head
  (namespace `EFL`);
* `src/free-list/segregated_free_list.c` — five size-class buckets,
  best-fit inside one bucket, no splitting, no coalescing
  (namespace `SFL`).

Modelling conventions, shared by all three namespaces:

* The heap is a `List` of blocks in address order; the program break starts
  at address 0 (a linear shift of the real initial break), so the address of
  block `i` is the sum of `header_size + size` over the blocks before it.
  Block layouts are contiguous, exactly as on the real heap.
* Machine integers are modelled as `Nat` (sizes, addresses — all
  non-negative in every reachable state) and `Int` for the signed
  `ptrdiff_t` request argument of `alloc`.  The one place where 64-bit
  wrap-around is semantically relevant — `align`'s `& ~(sizeof(word_t)-1)`
  mask and `calloc`'s `size * n` product — carries an explicit `2^64`.
* `sbrk` failure is an explicit `Bool` parameter (`osOk`).  A C execution
  that writes through a null pointer (which `explicit_free_list.c` and
  `segregated_free_list.c` do when `sbrk` fails) is modelled by a dedicated
  `crash` result carrying the state at the moment of the write.
* Reads the C source performs through invalid pointers (not reached in any
  state evaluated here) are given harmless defaults, noted at each site.
-/

/-! ## Word alignment (identical in all three sources)

`explicit_free_list.c:179`, `free_list1.c:277`, `segregated_free_list.c:117`:
`return (size + (sizeof(word_t) - 1)) & ~(sizeof(word_t) - 1);` with
`sizeof(word_t) = 8` on the 64-bit target; `~7` as a 64-bit word is
`2^64 - 8`. -/
def align (size : Nat) : Nat :=
  (size + 7) &&& (2 ^ 64 - 8)

/-- The 64-bit mask `~7` clears exactly the low three bits. -/
theorem land_mask64 (m : Nat) (hm : m < 2 ^ 64) :
    m &&& (2 ^ 64 - 8) = m - m % 8 := by
  have h8 : (2 ^ 64 - 8 : Nat) = (2 ^ 61 - 1) <<< 3 := by
    norm_num [Nat.shiftLeft_eq]
  have hr : m - m % 8 = (m >>> 3) <<< 3 := by
    rw [Nat.shiftRight_eq_div_pow, Nat.shiftLeft_eq]
    omega
  rw [h8, hr]
  apply Nat.eq_of_testBit_eq
  intro i
  rw [Nat.testBit_and, Nat.testBit_shiftLeft, Nat.testBit_shiftLeft,
    Nat.testBit_shiftRight, Nat.testBit_two_pow_sub_one]
  by_cases h3 : 3 ≤ i
  · by_cases h64 : i < 64
    · have hi : 3 + (i - 3) = i := by omega
      rw [hi]
      simp [h3, show i - 3 < 61 by omega]
    · have hi : 3 + (i - 3) = i := by omega
      rw [hi]
      have hbig : m.testBit i = false :=
        Nat.testBit_lt_two_pow
          (lt_of_lt_of_le hm (Nat.pow_le_pow_right (by norm_num) (by omega)))
      simp [h3, hbig, show ¬ (i - 3 < 61) by omega]
  · simp [h3]

/-- Lemma: `align` computed arithmetically, in the non-overflowing regime. -/
theorem align_eq (n : Nat) (h : n + 7 < 2 ^ 64) :
    align n = (n + 7) - (n + 7) % 8 := by
  unfold align
  exact land_mask64 (n + 7) h

/-- Claim **C7**. For every `n > 0` (within the 64-bit range where `n + 7` does not
wrap), `align n` is a multiple of the word size 8 and `n ≤ align n < n + 8`;
and `align 0 = 0`.  Matches spec §8 "Quantified invariants" and the `align`
functions of all three sources. -/
theorem claim_c7_align :
    align 0 = 0 ∧
    ∀ n : Nat, 0 < n → n + 7 < 2 ^ 64 →
      align n % 8 = 0 ∧ n ≤ align n ∧ align n < n + 8 := by
  constructor
  · rfl
  · intro n _ hlt
    rw [align_eq n hlt]
    omega

/-- Witness for C7: the hypotheses hold at `n = 121` and the spec's concrete
scenario `align 121 = 128` follows. -/
theorem claim_c7_witness :
    align 0 = 0 ∧ (align 121 % 8 = 0 ∧ 121 ≤ align 121 ∧ align 121 < 121 + 8) :=
  ⟨claim_c7_align.1, claim_c7_align.2 121 (by decide) (by norm_num)⟩

/-! ## Shared helpers -/

/-- The best-fit accumulator test `best == NULL || s < best->size`, shared by
the search loops of all three variants. -/
def better (best : Option (Nat × Nat)) (s : Nat) : Bool :=
  match best with
  | none => true
  | some (_, sb) => decide (s < sb)

/-- The implementation-defined `size_t → ptrdiff_t` conversion at the
`malloc`/`alloc` boundary (two's-complement wrap, as on the 64-bit target). -/
def toPtrdiff (n : Nat) : Int :=
  if n < 2 ^ 63 then (n : Int) else (n : Int) - 2 ^ 64

/-! ## `free_list1.c` (namespace `FL1`)

Blocks live in one contiguous arena, chained in address order via `nextb`
(`free_list1.c:100`): the chain pointer is computed from the block's size, so
the heap is exactly a list of blocks in address order and the address of
block `i` is determined by the sizes before it.  `SIZEOF_HDR = 8`. -/

namespace FL1

/-- A block of `free_list1.c`: the payload size in bytes (`sizeb`, the
high bits of `hdr`), the used bit (`hdr & 1`), and the last-in-chain bit
(`last = true` ⟺ `hdr & 2 == 0` ⟺ `nextb` returns NULL). -/
structure Block where
  size : Nat
  used : Bool
  last : Bool
deriving DecidableEq

/-- Address (offset from the initial break) of block `i`: each block
occupies `SIZEOF_HDR + size = 8 + size` bytes. -/
def addr : List Block → Nat → Nat
  | _, 0 => 0
  | [], _ + 1 => 0
  | b :: rest, i + 1 => 8 + b.size + addr rest i

/-- The current program break: total bytes occupied by all blocks. -/
def totalBytes : List Block → Nat
  | [] => 0
  | b :: rest => 8 + b.size + totalBytes rest

/-- Recover the block index from a block's start address (the inverse of
`addr`); `none` for an address that is not a block start. -/
def idxOfAddr : List Block → Nat → Option Nat
  | [], _ => none
  | b :: rest, a =>
    if a = 0 then some 0
    else if a < 8 + b.size then none
    else (idxOfAddr rest (a - (8 + b.size))).map (· + 1)

/-- Process-wide allocator state: the heap in address order, plus
`free_list_top` (`free_list1.c:118`), kept as the address of the most
recently grown block.  `free_list_start` needs no field: it is block 0
whenever the heap is non-empty. -/
structure State where
  hp : List Block
  top : Option Nat
deriving DecidableEq

/-- The traversal sequence of the `for` loop of `best_fit`
(`free_list1.c:201`): blocks from `free_list_start` following `nextb`, i.e.
list order until the first block whose last bit is set, each recorded as
(index, size, used).  (A last bit claiming a successor past the end of the
heap would make C read beyond the break; no state evaluated here has one.) -/
def chainEntries : List Block → Nat → List (Nat × Nat × Bool)
  | [], _ => []
  | b :: rest, i =>
    if b.last then [(i, b.size, b.used)]
    else (i, b.size, b.used) :: chainEntries rest (i + 1)

/-- The loop body of `best_fit` (`free_list1.c:197-219`): skip used blocks,
return an exact size match immediately, otherwise keep the smallest block
strictly larger than the request (first seen wins ties). -/
def best_fitGo (size : Nat) : List (Nat × Nat × Bool) → Option (Nat × Nat) → Option Nat
  | [], best => best.map (·.1)
  | (i, s, u) :: rest, best =>
    if u = false ∧ s = size then some i
    else if u = false ∧ size < s ∧ better best s then
      best_fitGo size rest (some (i, s))
    else best_fitGo size rest best

/-- Definition `best_fit` = `find_block` of `free_list1.c` in `BEST_FIT` mode. -/
def best_fit (hp : List Block) (size : Nat) : Option Nat :=
  best_fitGo size (chainEntries hp 0) none

/-- Function `can_split` (`free_list1.c:285`):
`SIZEOF_HDR + size + sizeof(word_t) <= sizeb(blk)`. -/
def can_split (blk : Block) (size : Nat) : Bool :=
  decide (8 + size + 8 ≤ blk.size)

def can_splitAt (hp : List Block) (i size : Nat) : Bool :=
  match hp[i]? with
  | some b => can_split b size
  | none => false

/-- Function `split_block` (`free_list1.c:303`): the head keeps the block's start
address with size `size` (`set_sizeb` preserves the used and last bits); the
tail begins `SIZEOF_HDR + size` bytes in, holds the remainder, is marked
unused, and its last bit copies `nextb blk = NULL`, i.e. the head's last
bit. -/
def split_block (hp : List Block) (i size : Nat) : List Block :=
  match hp[i]? with
  | none => hp
  | some b =>
    hp.take i ++ [⟨size, b.used, b.last⟩, ⟨b.size - (8 + size), false, b.last⟩]
      ++ hp.drop (i + 1)

def set_used (hp : List Block) (i : Nat) (u : Bool) : List Block :=
  match hp[i]? with
  | some b => hp.set i ⟨b.size, u, b.last⟩
  | none => hp

def set_last (hp : List Block) (i : Nat) (l : Bool) : List Block :=
  match hp[i]? with
  | some b => hp.set i ⟨b.size, b.used, l⟩
  | none => hp

/-- Function `alloc` (`free_list1.c:331`).  `osOk` is whether the `sbrk` growth call
succeeds.  Returns the payload address (block start + 8) and the new state;
this variant checks `request_block` for NULL, so its failure path returns
NULL with the state unchanged. -/
def alloc (σ : State) (osOk : Bool) (ssize : Int) : Option Nat × State :=
  if ssize ≤ 0 then (none, σ)
  else
    let size := align ssize.toNat
    match best_fit σ.hp size with
    | some i =>
      let hp1 := if can_splitAt σ.hp i size then split_block σ.hp i size else σ.hp
      (some (addr σ.hp i + 8), ⟨set_used hp1 i true, σ.top⟩)
    | none =>
      if osOk then
        let hpU :=
          match σ.top with
          | some tAddr =>
            match idxOfAddr σ.hp tAddr with
            | some t => set_last σ.hp t false
            | none => σ.hp
          | none => σ.hp
        (some (totalBytes σ.hp + 8), ⟨hpU ++ [⟨size, true, true⟩], some (totalBytes σ.hp)⟩)
      else (none, σ)

/-- Function `can_coalesce` (`free_list1.c:395`): the chain successor exists
(`nextb(blk) != NULL`, i.e. the last bit is clear) and is unused. -/
def can_coalesceAt (hp : List Block) (i : Nat) : Bool :=
  match hp[i]?, hp[i + 1]? with
  | some b, some c => !b.last && !c.used
  | _, _ => false

/-- Function `coalesce` (`free_list1.c:403`): the block absorbs its successor
(`size + next.size + SIZEOF_HDR`).  The subsequent
`nextb(nextb(blk)) == NULL` test reads the header two blocks ahead *after*
the size update, i.e. at the absorbed block's old successor; when none
exists the C code reads freshly-grown (zero) memory past the break, which
its own test suite relies on reading as "last", so a missing block counts
as NULL here. -/
def coalesce (hp : List Block) (i : Nat) : List Block :=
  match hp[i]?, hp[i + 1]? with
  | some b, some c =>
    let lastCond :=
      match hp[i + 2]? with
      | some d => d.last
      | none => true
    let newLast := if lastCond then true else b.last
    hp.take i ++ [⟨b.size + c.size + 8, b.used, newLast⟩] ++ hp.drop (i + 2)
  | _, _ => hp

/-- Function `free_` (`free_list1.c:412`), applied to a payload address `data`
returned by `alloc`: find the header at `data - 8`, coalesce forward once
if possible, mark unused.  (`free_(NULL)` and invalid pointers are outside
the model; an unknown address leaves the state unchanged.) -/
def free_ (σ : State) (data : Nat) : State :=
  match idxOfAddr σ.hp (data - 8) with
  | none => σ
  | some i =>
    let hp1 := if can_coalesceAt σ.hp i then coalesce σ.hp i else σ.hp
    ⟨set_used hp1 i false, σ.top⟩

/-- Holds (as `true`) iff two blocks adjacent in address order are both free. -/
def hasAdjacentFreePair : List Block → Bool
  | [] => false
  | [_] => false
  | b :: c :: rest => (!b.used && !c.used) || hasAdjacentFreePair (c :: rest)

end FL1


/-! ## `explicit_free_list.c` (namespace `EFL`)

`BlockHdr` is `{ ptrdiff_t size; BlockHdr *next, *prev; }`, 24 bytes on the
64-bit target.  There is no used flag: a block is free exactly when it is on
`global_free_list`.  The heap is the list of block sizes in address order
(blocks tile the arena with no gaps); the free list is the list of block
start addresses, head = most recently added, and traversal (`find_block`,
`blk = blk->prev`) walks it front to back. -/

namespace EFL

/-- Address (offset from the initial break) of block `i`: each block
occupies `sizeof(BlockHdr) + size = 24 + size` bytes. -/
def addr : List Nat → Nat → Nat
  | _, 0 => 0
  | [], _ + 1 => 0
  | s :: rest, i + 1 => 24 + s + addr rest i

/-- The current program break: total bytes occupied by all blocks. -/
def totalBytes : List Nat → Nat
  | [] => 0
  | s :: rest => 24 + s + totalBytes rest

/-- Recover a block index from its start address (inverse of `addr`). -/
def idxOfAddr : List Nat → Nat → Option Nat
  | [], _ => none
  | s :: rest, a =>
    if a = 0 then some 0
    else if a < 24 + s then none
    else (idxOfAddr rest (a - (24 + s))).map (· + 1)

/-- The read of `blk->size` through a block pointer.  A read through an address
that is no block's start would be garbage in C; it is defaulted to 0 here
and never reached in the states this file evaluates. -/
def sizeAt (hp : List Nat) (a : Nat) : Nat :=
  match idxOfAddr hp a with
  | some i => hp[i]?.getD 0
  | none => 0

/-- Process-wide state: block sizes in address order, the free list as
addresses (`global_free_list`, head first), and the saved initial break
(`init`, captured by `request_block_from_os`). -/
structure State where
  hp : List Nat
  fl : List Nat
  initBrk : Option Nat
deriving DecidableEq

/-- Loop of `find_block` (`explicit_free_list.c:110-126`) over the
traversal sequence of (address, size) pairs: exact size returns
immediately, otherwise the smallest strictly larger block wins, first seen
breaking ties. -/
def find_go (size : Nat) : List (Nat × Nat) → Option (Nat × Nat) → Option Nat
  | [], best => best.map (·.1)
  | (a, s) :: rest, best =>
    if s = size then some a
    else if size < s ∧ better best s then find_go size rest (some (a, s))
    else find_go size rest best

/-- Function `find_block`: traverse `global_free_list` reading each block's size. -/
def find_block (hp : List Nat) (fl : List Nat) (size : Nat) : Option Nat :=
  find_go size (fl.map fun a => (a, sizeAt hp a)) none

/-- Splice of `split_block` (`explicit_free_list.c:150-152`) on the free
list: `rem` enters the traversal immediately after `blk`
(`rem->prev = blk->prev; blk->prev = rem; rem->next = blk`). -/
def insertAfter : List Nat → Nat → Nat → List Nat
  | [], _, _ => []
  | x :: xs, a, n => if x = a then x :: n :: xs else x :: insertAfter xs a n

/-- Function `split_block` (`explicit_free_list.c:134-153`): no-op unless
`blk->size ≥ real_size + sizeof(word_t)` with `real_size = 24 + size`;
otherwise the head shrinks to `size` and the remainder block at
`blk + 24 + size` (size `S - 24 - size`) is spliced into the free list
after `blk`. -/
def split_block (hp : List Nat) (fl : List Nat) (a size : Nat) : List Nat × List Nat :=
  match idxOfAddr hp a with
  | none => (hp, fl)
  | some i =>
    let S := hp[i]?.getD 0
    if S < 24 + size + 8 then (hp, fl)
    else (hp.take i ++ [size, S - (24 + size)] ++ hp.drop (i + 1),
          insertAfter fl a (a + 24 + size))

/-- Function `is_adjacent` (`explicit_free_list.c:220`): `a` is directly followed by
`b` in address order. -/
def is_adjacent (hp : List Nat) (a b : Nat) : Bool :=
  decide (a + 24 + sizeAt hp a = b)

/-- Heap effect of one merge: the block at `a` absorbs the block directly
after it (`size += sizeof(BlockHdr) + neighbour->size`). -/
def absorb (hp : List Nat) (a : Nat) : List Nat :=
  match idxOfAddr hp a with
  | some i =>
    match hp[i]?, hp[i + 1]? with
    | some s1, some s2 => hp.take i ++ [s1 + 24 + s2] ++ hp.drop (i + 2)
    | _, _ => hp
  | none => hp

/-- Function `merge_block` (`explicit_free_list.c:227-246`), at its only call shape:
the freed block `a` was just consed onto the free list (`a :: rest`), so
`blk->next == NULL` and `blk->prev` is the head of `rest` (the former list
head), as the source comment states.  First `if`: `a` followed by its
`prev` → `a` absorbs it and `prev` leaves the list.  Second `if` (on the
re-read `prev`): `prev` followed by `a` → `prev` absorbs `a` and `a`
leaves the list. -/
def merge_block (hp : List Nat) (a : Nat) (rest : List Nat) : List Nat × List Nat :=
  let step1 : List Nat × List Nat :=
    match rest with
    | [] => (hp, rest)
    | p :: rs => if is_adjacent hp a p then (absorb hp a, rs) else (hp, p :: rs)
  match step1.2 with
  | [] => (step1.1, a :: step1.2)
  | p2 :: _ =>
    if is_adjacent step1.1 p2 a then (absorb step1.1 p2, step1.2)
    else (step1.1, a :: step1.2)

/-- Function `wfree` (`explicit_free_list.c:249`) on a non-null payload address:
`add_block` conses the header address onto the free list, then
`merge_block` coalesces with the former head where adjacent. -/
def wfree (σ : State) (mem : Nat) : State :=
  let a := mem - 24
  let pr := merge_block σ.hp a σ.fl
  ⟨pr.1, pr.2, σ.initBrk⟩

/-- Result of `alloc`: `crash` models the C execution dereferencing the
NULL block pointer (`blk->size = size` after a failed
`request_block_from_os`), carrying the state at the moment of the write. -/
inductive AOut where
  | crash : State → AOut
  | ret : Option Nat → State → AOut
deriving DecidableEq

/-- Function `alloc` (`explicit_free_list.c:189-214`).  Fit found: split, unlink,
return payload.  No fit: `request_block_from_os` records `init` on first
use *before* growing; if `sbrk` fails it returns NULL, which `alloc`
dereferences unchecked — modelled as `crash`. -/
def alloc (σ : State) (osOk : Bool) (ssize : Int) : AOut :=
  if ssize ≤ 0 then .ret none σ
  else
    let size := align ssize.toNat
    match find_block σ.hp σ.fl size with
    | some a =>
      let pr := split_block σ.hp σ.fl a size
      .ret (some (a + 24)) ⟨pr.1, pr.2.erase a, σ.initBrk⟩
    | none =>
      let curBrk := totalBytes σ.hp
      let newInit := some (σ.initBrk.getD curBrk)
      if osOk then .ret (some (curBrk + 24)) ⟨σ.hp ++ [size], σ.fl, newInit⟩
      else .crash ⟨σ.hp, σ.fl, newInit⟩

/-- Function `malloc` (`explicit_free_list.c:258`): the `size_t` argument crosses
into `alloc`'s `ptrdiff_t` parameter. -/
def malloc (σ : State) (osOk : Bool) (n : Nat) : AOut :=
  alloc σ osOk (toPtrdiff n)

/-- Result of `realloc`/`calloc`: as `AOut`, plus the log of payload-byte
regions `(start, length)` the call writes (`memcpy`/`memset`); a byte not
covered by the log is untouched by the call. -/
inductive WOut where
  | crash : State → WOut
  | ret : Option Nat → State → List (Nat × Nat) → WOut
deriving DecidableEq

/-- Function `realloc` (`explicit_free_list.c:262-277`): NULL behaves as `malloc`;
a block already at least `size` bytes is returned as is; otherwise a fresh
allocation, `memcpy` of `blk->size` bytes to it, and `free` of the old
payload. -/
def realloc (σ : State) (osOk : Bool) (mem : Option Nat) (size : Nat) : WOut :=
  match mem with
  | none =>
    match malloc σ osOk size with
    | .crash σ2 => .crash σ2
    | .ret r σ2 => .ret r σ2 []
  | some p =>
    let a := p - 24
    if size ≤ sizeAt σ.hp a then .ret (some p) σ []
    else
      match malloc σ osOk size with
      | .crash σ2 => .crash σ2
      | .ret none σ2 => .ret none σ2 []
      | .ret (some q) σ2 =>
        let n := sizeAt σ2.hp a
        .ret (some q) (wfree σ2 p) [(q, n)]

/-- Function `calloc` (`explicit_free_list.c:279-297`): the division-based overflow
guard is skipped for small factors; then `malloc(size * n)` (a 64-bit
product) and `memset(mem, 0, size)` — note the `memset` length. -/
def calloc (σ : State) (osOk : Bool) (n size : Nat) : WOut :=
  if (65535 < n ∨ 65535 < size) ∧ (2 ^ 64 - 1) / n < size then .ret none σ []
  else
    match malloc σ osOk (size * n % 2 ^ 64) with
    | .crash σ2 => .crash σ2
    | .ret none σ2 => .ret none σ2 []
    | .ret (some p) σ2 => .ret (some p) σ2 [(p, size)]

end EFL


/-! ## `segregated_free_list.c` (namespace `SFL`)

`BlockHdr` is `{ size_t size; BlockHdr *next; int used; }`, 24 bytes on the
64-bit target.  Blocks are never split or merged, so they are identified by
their heap index; each of the five buckets is a list of block indices, head
= most recently inserted.  Blocks enter a bucket once, at creation, and are
never removed from it (`wfree` only clears the used flag). -/

namespace SFL

/-- A block: payload size in bytes and its used flag. -/
structure Blk where
  size : Nat
  used : Bool
deriving DecidableEq

/-- Process-wide state: the heap in address order, the five bucket lists
(`global_buckets`), and the saved initial break (`heap_base_addr`). -/
structure State where
  hp : List Blk
  buckets : List (List Nat)
  base : Option Nat
deriving DecidableEq

/-- The state before any allocation: empty heap, five empty buckets. -/
def state0 : State := ⟨[], [[], [], [], [], []], none⟩

def addr : List Blk → Nat → Nat
  | _, 0 => 0
  | [], _ + 1 => 0
  | b :: rest, i + 1 => 24 + b.size + addr rest i

def totalBytes : List Blk → Nat
  | [] => 0
  | b :: rest => 24 + b.size + totalBytes rest

def idxOfAddr : List Blk → Nat → Option Nat
  | [], _ => none
  | b :: rest, a =>
    if a = 0 then some 0
    else if a < 24 + b.size then none
    else (idxOfAddr rest (a - (24 + b.size))).map (· + 1)

/-- Function `bucket_idx` (`segregated_free_list.c:62-77`): size in words, matched
against the class bounds `HUGE ≥ 128`, `BIG ≥ 64`, `MID ≥ 32`,
`SMALL ≥ 16`, `TINY ≥ 1` (index 0 also catches zero words). -/
def bucket_idx (size : Nat) : Nat :=
  let words := size / 8
  if 128 ≤ words then 4
  else if 64 ≤ words then 3
  else if 32 ≤ words then 2
  else if 16 ≤ words then 1
  else 0

/-- Lower bound (in words) of bucket `j`. -/
def bucketBound : Nat → Nat
  | 0 => 1
  | 1 => 16
  | 2 => 32
  | 3 => 64
  | _ => 128

/-- Loop of `find_block` (`segregated_free_list.c:79-94`) over one bucket's
index list: unused blocks of size `≥ size`, smallest wins, first seen wins
ties; there is no early exit.  (A dangling bucket entry — impossible in a
reachable state — reads as a used block and is skipped.) -/
def find_go (size : Nat) (hp : List Blk) : List Nat → Option (Nat × Nat) → Option Nat
  | [], best => best.map (·.1)
  | i :: rest, best =>
    let b := hp[i]?.getD ⟨0, true⟩
    if b.used = false ∧ size ≤ b.size ∧ better best b.size then
      find_go size hp rest (some (i, b.size))
    else find_go size hp rest best

/-- Function `find_block`: search only the bucket selected by `bucket_idx size`. -/
def find_block (σ : State) (size : Nat) : Option Nat :=
  find_go size σ.hp (σ.buckets.getD (bucket_idx size) []) none

def set_used (hp : List Blk) (i : Nat) (u : Bool) : List Blk :=
  match hp[i]? with
  | some b => hp.set i ⟨b.size, u⟩
  | none => hp

/-- Result of `alloc`: as in `EFL`, `crash` models the unchecked NULL
dereference after a failed `request_block_from_os`
(`segregated_free_list.c:137-138`). -/
inductive AOut where
  | crash : State → AOut
  | ret : Option Nat → State → AOut
deriving DecidableEq

/-- Function `alloc` (`segregated_free_list.c:121-148`).  A found block is only
marked used (it stays in its bucket); a grown block is appended, marked
used, and consed onto the bucket for its (aligned) size.
`request_block_from_os` records `heap_base_addr` before the `sbrk` that may
fail. -/
def alloc (σ : State) (osOk : Bool) (ssize : Int) : AOut :=
  if ssize ≤ 0 then .ret none σ
  else
    let size := align ssize.toNat
    match find_block σ size with
    | some i => .ret (some (addr σ.hp i + 24)) ⟨set_used σ.hp i true, σ.buckets, σ.base⟩
    | none =>
      let curBrk := totalBytes σ.hp
      let base2 := some (σ.base.getD curBrk)
      if osOk then
        let idx := bucket_idx size
        .ret (some (curBrk + 24))
          ⟨σ.hp ++ [⟨size, true⟩],
           σ.buckets.set idx (σ.hp.length :: σ.buckets.getD idx []), base2⟩
      else .crash ⟨σ.hp, σ.buckets, base2⟩

/-- Function `wfree` (`segregated_free_list.c:150-155`) on a non-null payload:
clear the used flag of the block whose header is 24 bytes below.  The
block stays in whatever bucket it is in. -/
def wfree (σ : State) (mem : Nat) : State :=
  match idxOfAddr σ.hp (mem - 24) with
  | some i => ⟨set_used σ.hp i false, σ.buckets, σ.base⟩
  | none => σ

/-- Function `reset_heap` (`segregated_free_list.c:44-54`). -/
def reset_heap (σ : State) : State :=
  if σ.base.isSome then state0 else σ

/-- States reachable from the pristine engine through the public surface
(`alloc` outcomes that return, `wfree`, `reset_heap`). -/
inductive Reach : State → Prop where
  | start : Reach state0
  | step_alloc {σ σ2 : State} {ok : Bool} {n : Int} {r : Option Nat} :
      Reach σ → alloc σ ok n = .ret r σ2 → Reach σ2
  | step_free {σ : State} (p : Nat) : Reach σ → Reach (wfree σ p)
  | step_reset {σ : State} : Reach σ → Reach (reset_heap σ)

/-- Total number of occurrences of block index `i` across all buckets. -/
def bucketsCount (bs : List (List Nat)) (i : Nat) : Nat :=
  (bs.map (fun l => l.count i)).sum

end SFL


/-! ## Byte-write coverage

The write logs of `EFL.realloc`/`EFL.calloc` list every byte region the call
stores into payload memory; a byte address not covered by the log is left
with whatever value it had before the call. -/

/-- Whether byte address `a` lies in one of the logged write regions. -/
def coveredBy (log : List (Nat × Nat)) (a : Nat) : Bool :=
  log.any fun r => r.1 ≤ a && a < r.1 + r.2

/-! ## Claim C1 — allocate on OS failure -/

/-- Claim **C1** (code bug).  The claim — `allocate` returns null with the engine
state unchanged when the break primitive fails — holds for `free_list1.c`
(third conjunct: NULL is checked, nothing mutated) but not for the two
cited variants.  In `explicit_free_list.c` and `segregated_free_list.c`,
`alloc` uses the NULL result of `request_block_from_os` without checking
and executes `blk->size = size` through it (a crash, not a null return),
and the recorded initial break (`init` / `heap_base_addr`) has already been
mutated from `NULL` to the current break before the failed `sbrk`. -/
theorem claim_c1_oom_alloc :
    EFL.alloc ⟨[], [], none⟩ false 8 = .crash ⟨[], [], some 0⟩ ∧
    SFL.alloc SFL.state0 false 8 = .crash ⟨[], [[], [], [], [], []], some 0⟩ ∧
    FL1.alloc ⟨[], none⟩ false 8 = (none, ⟨[], none⟩) := by
  decide

/-! ## Claim C3 — zero_allocate zeroing -/

/-- Claim **C3** (code bug).  `calloc(2, 8)` reusing a freed 16-byte block
allocates 16 bytes but executes `memset(mem, 0, size)` with
`size = 8` (`explicit_free_list.c:295`): the write log shows exactly one
8-byte zeroed region, and every payload byte at offsets 8..15 — half of the
`count × elem_size = 16` bytes the claim requires to be zero — is written
by nothing in the call, so it keeps whatever the freed block held there. -/
theorem claim_c3_calloc_short_memset :
    EFL.alloc ⟨[], [], none⟩ true 16 = .ret (some 24) ⟨[16], [], some 0⟩ ∧
    EFL.wfree ⟨[16], [], some 0⟩ 24 = ⟨[16], [0], some 0⟩ ∧
    EFL.calloc ⟨[16], [0], some 0⟩ true 2 8 =
      .ret (some 24) ⟨[16], [], some 0⟩ [(24, 8)] ∧
    (∀ off : Nat, 8 ≤ off → off < 16 → coveredBy [(24, 8)] (24 + off) = false) ∧
    8 < 2 * 8 := by
  refine ⟨by decide, by decide, by decide, ?_, by decide⟩
  intro off h1 h2
  simp [coveredBy]
  omega

/-! ## Claim C2 — adjacent free blocks after free (counterexample) -/

/-- Claim **C2** is false as stated: in `free_list1.c` (a variant with
coalescing), allocate two 8-byte blocks and free them in address order.
Freeing the first cannot coalesce (its neighbour is still used) and
freeing the second only looks forward (`can_coalesce` checks `nextb`
only), so after the second `free_` returns, blocks 0 and 1 are
address-adjacent (`addr 1 = addr 0 + 8 + 8`) and both free. -/
theorem claim_c2_counterexample :
    (FL1.alloc ⟨[], none⟩ true 8).1 = some 8 ∧
    (FL1.alloc (FL1.alloc ⟨[], none⟩ true 8).2 true 8).1 = some 24 ∧
    (FL1.free_
        (FL1.free_ (FL1.alloc (FL1.alloc ⟨[], none⟩ true 8).2 true 8).2 8)
        24).hp = [⟨8, false, false⟩, ⟨8, false, true⟩] ∧
    FL1.hasAdjacentFreePair [(⟨8, false, false⟩ : FL1.Block), ⟨8, false, true⟩] = true ∧
    FL1.addr [(⟨8, false, false⟩ : FL1.Block), ⟨8, false, true⟩] 1 =
      FL1.addr [(⟨8, false, false⟩ : FL1.Block), ⟨8, false, true⟩] 0 + 8 + 8 := by
  decide

/-! ## Claim C4 — Index membership (counterexample) -/

/-- Claim **C4** is false as stated: in `segregated_free_list.c`, a block enters
its bucket at creation and is never unlinked, so immediately after the
public call `alloc(8)` on the pristine engine the returned block is marked
used *and* is the head of the `TINY` bucket — a used block reachable from
an Index head. -/
theorem claim_c4_counterexample :
    SFL.alloc SFL.state0 true 8 =
      .ret (some 24) ⟨[⟨8, true⟩], [[0], [], [], [], []], some 0⟩ ∧
    ((⟨[⟨8, true⟩], [[0], [], [], [], []], some 0⟩ : SFL.State).hp[0]?.getD
        (⟨0, false⟩ : SFL.Blk)).used = true ∧
    0 ∈ (⟨[⟨8, true⟩], [[0], [], [], [], []], some 0⟩ : SFL.State).buckets.getD 0 [] := by
  decide

/-! ## Claim C8 — segregated bucket placement -/

/-- Lemma: `bucket_idx` written without the intermediate `words` binding. -/
theorem SFL.bucket_idx_eq (size : Nat) :
    SFL.bucket_idx size =
      if 128 ≤ size / 8 then 4
      else if 64 ≤ size / 8 then 3
      else if 32 ≤ size / 8 then 2
      else if 16 ≤ size / 8 then 1
      else 0 := rfl

/-- Lemma: `bucket_idx` never exceeds the highest bucket. -/
theorem SFL.bucket_idx_le (size : Nat) : SFL.bucket_idx size ≤ 4 := by
  rw [SFL.bucket_idx_eq]
  split_ifs <;> omega

/-- Claim **C8**.  `bucket_idx` picks the highest-indexed bucket whose lower
bound (in words: 1, 16, 32, 64, 128) the payload size meets: the chosen
bucket's bound is met, and any bucket whose bound is met has index
`≤ bucket_idx size`.  Concretely, on the pristine engine `alloc(8)` creates
its block in `TINY` (bucket 0), `alloc(125)` is rounded to 128 bytes and
creates its block in `SMALL` (bucket 1), and `alloc(1024)` creates its
block in `HUGE` (bucket 4). -/
theorem claim_c8_buckets :
    (∀ s : Nat, 1 ≤ s / 8 →
      SFL.bucketBound (SFL.bucket_idx s) ≤ s / 8 ∧
      ∀ j : Nat, j ≤ 4 → SFL.bucketBound j ≤ s / 8 → j ≤ SFL.bucket_idx s) ∧
    SFL.alloc SFL.state0 true 8 =
      .ret (some 24) ⟨[⟨8, true⟩], [[0], [], [], [], []], some 0⟩ ∧
    SFL.alloc ⟨[⟨8, true⟩], [[0], [], [], [], []], some 0⟩ true 125 =
      .ret (some 56) ⟨[⟨8, true⟩, ⟨128, true⟩], [[0], [1], [], [], []], some 0⟩ ∧
    SFL.alloc ⟨[⟨8, true⟩, ⟨128, true⟩], [[0], [1], [], [], []], some 0⟩ true 1024 =
      .ret (some 208)
        ⟨[⟨8, true⟩, ⟨128, true⟩, ⟨1024, true⟩], [[0], [1], [], [], [2]], some 0⟩ := by
  refine ⟨?_, by decide, by decide, by decide⟩
  intro s hs
  rw [SFL.bucket_idx_eq]
  constructor
  · split_ifs <;> simp [SFL.bucketBound] <;> omega
  · intro j hj hb
    interval_cases j <;> simp [SFL.bucketBound] at hb <;> split_ifs <;> omega

/-- Witness for C8: the general part applied at `s = 128` (16 words lands
in `SMALL`, bucket 1). -/
theorem claim_c8_witness :
    SFL.bucketBound (SFL.bucket_idx 128) ≤ 128 / 8 ∧
    ∀ j : Nat, j ≤ 4 → SFL.bucketBound j ≤ 128 / 8 → j ≤ SFL.bucket_idx 128 :=
  claim_c8_buckets.1 128 (by decide)

/-! ## Claim C10 — the search never leaves the starting bucket -/

/-- The `find_block` loop returns its accumulator unchanged when every
block listed in the bucket is used or too small. -/
theorem SFL.find_go_keep (size : Nat) (hp : List SFL.Blk) :
    ∀ (l : List Nat) (best : Option (Nat × Nat)),
      (∀ i ∈ l, (hp[i]?.getD ⟨0, true⟩).used = true ∨ (hp[i]?.getD ⟨0, true⟩).size < size) →
      SFL.find_go size hp l best = best.map (·.1) := by
  intro l
  induction l with
  | nil => intro best _; rfl
  | cons i rest ih =>
    intro best h
    have hi := h i (List.mem_cons_self ..)
    simp only [SFL.find_go]
    rw [if_neg]
    · exact ih best fun j hj => h j (List.mem_cons_of_mem _ hj)
    · rintro ⟨h1, h2, -⟩
      rcases hi with hu | hs
      · rw [h1] at hu
        cases hu
      · omega

/-- Lemma: `find_block` fails when the bucket selected for the request holds no
fitting free block — whatever the other buckets hold. -/
theorem SFL.find_block_none (σ : SFL.State) (size : Nat)
    (h : ∀ i ∈ σ.buckets.getD (SFL.bucket_idx size) [],
      (σ.hp[i]?.getD ⟨0, true⟩).used = true ∨ (σ.hp[i]?.getD ⟨0, true⟩).size < size) :
    SFL.find_block σ size = none := by
  unfold SFL.find_block
  rw [SFL.find_go_keep size σ.hp _ none h]
  rfl

/-- Claim **C10**.  The segregated search inspects only the bucket selected by
`bucket_idx` of the aligned request: whenever that single bucket holds no
fitting free block, `alloc` takes the growth path — appending a fresh block
at the break and inserting it into that same bucket — regardless of what
any other bucket holds.  (The witness instantiates a state whose
higher-indexed bucket holds a fitting free block.) -/
theorem claim_c10_single_bucket (σ : SFL.State) (n : Int) (hn : 0 < n)
    (hno : ∀ i ∈ σ.buckets.getD (SFL.bucket_idx (align n.toNat)) [],
      (σ.hp[i]?.getD ⟨0, true⟩).used = true ∨
        (σ.hp[i]?.getD ⟨0, true⟩).size < align n.toNat) :
    SFL.alloc σ true n =
      .ret (some (SFL.totalBytes σ.hp + 24))
        ⟨σ.hp ++ [⟨align n.toNat, true⟩],
         σ.buckets.set (SFL.bucket_idx (align n.toNat))
           (σ.hp.length :: σ.buckets.getD (SFL.bucket_idx (align n.toNat)) []),
         some (σ.base.getD (SFL.totalBytes σ.hp))⟩ := by
  have hf := SFL.find_block_none σ (align n.toNat) hno
  unfold SFL.alloc
  rw [if_neg (by omega : ¬ n ≤ 0)]
  simp only [hf]
  simp

/-! ## Claim C4 — Index membership invariant (amended) -/

namespace SFL

theorem set_used_getElem (hp : List Blk) (i k : Nat) (u : Bool) :
    (set_used hp i u)[k]? =
      if k = i then (hp[i]?).map (fun b => ⟨b.size, u⟩) else hp[k]? := by
  unfold set_used
  cases hb : hp[i]? with
  | none =>
    simp only [hb]
    by_cases hk : k = i <;> simp [hk, hb]
  | some b =>
    simp only [hb]
    by_cases hk : k = i
    · subst hk
      have hlt : k < hp.length := (List.getElem?_eq_some_iff.mp hb).1
      simp [List.getElem?_set_self hlt, hb]
    · simp [hk, List.getElem?_set_ne (Ne.symm hk)]

theorem set_used_length (hp : List Blk) (i : Nat) (u : Bool) :
    (set_used hp i u).length = hp.length := by
  unfold set_used
  cases hp[i]? <;> simp

/-- Adding one index at the head of bucket `j` raises the total count of
that index by one and leaves every other count unchanged. -/
theorem bucketsCount_set_cons (bs : List (List Nat)) (j x i : Nat)
    (hj : j < bs.length) :
    bucketsCount (bs.set j (x :: bs.getD j [])) i =
      (if x = i then 1 else 0) + bucketsCount bs i := by
  induction bs generalizing j with
  | nil => simp at hj
  | cons hd tl ih =>
    cases j with
    | zero =>
      simp only [List.set_cons_zero, List.getD_cons_zero, bucketsCount,
        List.map_cons, List.sum_cons, List.count_cons, beq_iff_eq]
      split_ifs <;> omega
    | succ j =>
      have := ih j (by simpa using hj)
      simp only [List.set_cons_succ, List.getD_cons_succ, bucketsCount,
        List.map_cons, List.sum_cons] at this ⊢
      omega

theorem getD_set_self (bs : List (List Nat)) (j : Nat) (l : List Nat)
    (hj : j < bs.length) : (bs.set j l).getD j [] = l := by
  simp [List.getD_eq_getElem?_getD, List.getElem?_set_self hj]

theorem getD_set_ne (bs : List (List Nat)) (j k : Nat) (l : List Nat)
    (hk : k ≠ j) : (bs.set j l).getD k [] = bs.getD k [] := by
  simp [List.getD_eq_getElem?_getD, List.getElem?_set_ne (Ne.symm hk)]

/-- An index no bucket mentions has total count zero. -/
theorem bucketsCount_eq_zero (bs : List (List Nat)) (n : Nat)
    (h : ∀ l ∈ bs, n ∉ l) : bucketsCount bs n = 0 := by
  induction bs with
  | nil => rfl
  | cons hd tl ih =>
    have h1 : hd.count n = 0 := List.count_eq_zero.mpr (h hd (List.mem_cons_self ..))
    have h2 := ih fun l hl => h l (List.mem_cons_of_mem _ hl)
    simp only [bucketsCount, List.map_cons, List.sum_cons] at h2 ⊢
    omega

/-- The bucket-membership invariant of the segregated engine: five
buckets; every block's index occurs exactly once across all buckets and
occurs in the bucket keyed by the block's size; every bucket entry indexes
a live block. -/
def Inv (σ : State) : Prop :=
  σ.buckets.length = 5 ∧
  (∀ (i : Nat) (b : Blk), σ.hp[i]? = some b →
    bucketsCount σ.buckets i = 1 ∧ i ∈ σ.buckets.getD (bucket_idx b.size) []) ∧
  (∀ (j : Nat) (l : List Nat), σ.buckets[j]? = some l → ∀ i ∈ l, i < σ.hp.length)

theorem inv_state0 : Inv state0 := by
  refine ⟨rfl, ?_, ?_⟩
  · intro i b hb
    simp [state0] at hb
  · intro j l hl i hi
    have hle : l = [] := by
      rcases j with _ | _ | _ | _ | _ | j <;> simp_all [state0]
    subst hle
    cases hi

theorem inv_set_used {hp : List Blk} {bs : List (List Nat)} {b0 b2 : Option Nat}
    {i : Nat} {u : Bool} (hInv : Inv ⟨hp, bs, b0⟩) :
    Inv ⟨set_used hp i u, bs, b2⟩ := by
  unfold Inv at hInv ⊢
  dsimp only [] at hInv ⊢
  obtain ⟨h5, hmem, hrange⟩ := hInv
  refine ⟨h5, ?_, ?_⟩
  · intro k blk hk
    rw [set_used_getElem] at hk
    by_cases hki : k = i
    · rw [if_pos hki] at hk
      cases hb : hp[i]? with
      | none => rw [hb] at hk; cases hk
      | some b =>
        rw [hb] at hk
        cases hk
        subst hki
        exact hmem k b hb
    · rw [if_neg hki] at hk
      exact hmem k blk hk
  · intro j l hl k hk
    rw [set_used_length]
    exact hrange j l hl k hk

theorem inv_grow {hp : List Blk} {bs : List (List Nat)} {b0 b2 : Option Nat}
    (s : Nat) (hInv : Inv ⟨hp, bs, b0⟩) :
    Inv ⟨hp ++ [⟨s, true⟩],
         bs.set (bucket_idx s) (hp.length :: bs.getD (bucket_idx s) []), b2⟩ := by
  unfold Inv at hInv ⊢
  dsimp only [] at hInv ⊢
  obtain ⟨h5, hmem, hrange⟩ := hInv
  have hjlt : bucket_idx s < bs.length := by
    rw [h5]
    exact lt_of_le_of_lt (bucket_idx_le s) (by norm_num)
  have hfresh : bucketsCount bs hp.length = 0 := by
    refine bucketsCount_eq_zero bs hp.length fun l hl => ?_
    intro hn
    rcases List.mem_iff_getElem?.mp hl with ⟨j, hj⟩
    exact absurd (hrange j l hj _ hn) (lt_irrefl _)
  refine ⟨by simpa using h5, ?_, ?_⟩
  · intro k blk hk
    by_cases hkl : k < hp.length
    · rw [List.getElem?_append_left hkl] at hk
      have hold := hmem k blk hk
      constructor
      · rw [bucketsCount_set_cons bs _ _ _ hjlt, if_neg (by omega)]
        have := hold.1
        omega
      · by_cases hbk : bucket_idx blk.size = bucket_idx s
        · rw [hbk, getD_set_self bs _ _ hjlt]
          exact List.mem_cons_of_mem _ (hbk ▸ hold.2)
        · rw [getD_set_ne bs _ _ _ hbk]
          exact hold.2
    · have hkeq : k = hp.length := by
        rcases List.getElem?_eq_some_iff.mp hk with ⟨hlen, _⟩
        simp only [List.length_append, List.length_cons, List.length_nil] at hlen
        omega
      subst hkeq
      rw [List.getElem?_concat_length] at hk
      cases hk
      constructor
      · rw [bucketsCount_set_cons bs _ _ _ hjlt, if_pos rfl, hfresh]
      · rw [getD_set_self bs _ _ hjlt]
        exact List.mem_cons_self ..
  · intro j l hl k hk
    simp only [List.length_append, List.length_cons, List.length_nil]
    by_cases hji : j = bucket_idx s
    · subst hji
      rw [List.getElem?_set_self (by omega)] at hl
      cases hl
      rcases List.mem_cons.mp hk with h | h
      · omega
      · cases hjl : bs[bucket_idx s]? with
        | none =>
          rw [List.getElem?_eq_none_iff] at hjl
          omega
        | some l0 =>
          have hgd : bs.getD (bucket_idx s) [] = l0 := by
            simp [List.getD_eq_getElem?_getD, hjl]
          rw [hgd] at h
          have := hrange _ l0 hjl k h
          omega
    · rw [List.getElem?_set_ne (Ne.symm hji)] at hl
      have := hrange j l hl k hk
      omega

/-- Every returning `alloc` preserves the bucket invariant. -/
theorem inv_step_alloc {σ σ2 : State} {ok : Bool} {n : Int} {r : Option Nat}
    (hInv : Inv σ) (h : alloc σ ok n = .ret r σ2) : Inv σ2 := by
  unfold alloc at h
  dsimp only [] at h
  split at h
  · cases h
    exact hInv
  · split at h
    · cases h
      exact inv_set_used hInv
    · split at h
      · cases h
        exact inv_grow _ hInv
      · cases h

/-- Lemma: `wfree` preserves the bucket invariant. -/
theorem inv_step_free {σ : State} (p : Nat) (hInv : Inv σ) : Inv (wfree σ p) := by
  unfold wfree
  split
  · exact inv_set_used hInv
  · exact hInv

/-- Lemma: `reset_heap` preserves the bucket invariant. -/
theorem inv_step_reset {σ : State} (hInv : Inv σ) : Inv (reset_heap σ) := by
  unfold reset_heap
  split
  · exact inv_state0
  · exact hInv

/-- The invariant holds in every reachable state. -/
theorem inv_of_reach {σ : State} (h : Reach σ) : Inv σ := by
  induction h with
  | start => exact inv_state0
  | step_alloc _ heq ih => exact inv_step_alloc ih heq
  | step_free p _ ih => exact inv_step_free p ih
  | step_reset _ ih => exact inv_step_reset ih

end SFL

/-- Claim **C4** (amended).  After every sequence of public operations of the
segregated variant, *every* block — free or used — is reachable from
exactly one bucket head, namely the bucket `bucket_idx` assigns to its
size: `alloc` inserts a block at creation and never unlinks it, `wfree`
only toggles the used flag.  (The original claim's second half — used
blocks reachable from no Index head — is refuted by
`claim_c4_counterexample`.) -/
theorem claim_c4_amended (σ : SFL.State) (h : SFL.Reach σ) :
    ∀ (i : Nat) (b : SFL.Blk), σ.hp[i]? = some b →
      SFL.bucketsCount σ.buckets i = 1 ∧
      i ∈ σ.buckets.getD (SFL.bucket_idx b.size) [] :=
  (SFL.inv_of_reach h).2.1

/-- Witness for C4 (amended): the state after the public call `alloc(8)`
on the pristine engine is reachable, and its single (used) block is counted
once across all buckets, sitting in the `TINY` bucket. -/
theorem claim_c4_witness :
    SFL.bucketsCount [[0], [], [], [], []] 0 = 1 ∧
    0 ∈ ([[0], [], [], [], []] : List (List Nat)).getD (SFL.bucket_idx 8) [] :=
  claim_c4_amended ⟨[⟨8, true⟩], [[0], [], [], [], []], some 0⟩
    (@SFL.Reach.step_alloc SFL.state0 ⟨[⟨8, true⟩], [[0], [], [], [], []], some 0⟩
      true 8 (some 24) SFL.Reach.start (by decide)) 0 ⟨8, true⟩ (by decide)

/-! ## Claim C5 — the best-fit search

The two cited search loops — `best_fit` of `free_list1.c` (which walks all
blocks and skips used ones) and `find_block` of `explicit_free_list.c`
(which walks the free list, all of whose members are free) — share one
characterization: first exact match if one is met, else the smallest
strictly larger candidate with ties to the earlier one, else none. -/

namespace FL1

/-- The accumulator survives a stretch of the traversal in which every free
entry is either too small or no better than the accumulator. -/
theorem best_fitGo_keep (size : Nat) :
    ∀ (l : List (Nat × Nat × Bool)) (ib sb : Nat),
      (∀ e ∈ l, e.2.2 = false → e.2.1 < size ∨ (size < e.2.1 ∧ sb ≤ e.2.1)) →
      best_fitGo size l (some (ib, sb)) = some ib := by
  intro l
  induction l with
  | nil => intro ib sb _; rfl
  | cons e0 rest ih =>
    intro ib sb h
    obtain ⟨i, s, u⟩ := e0
    have he := h (i, s, u) (List.mem_cons_self ..)
    dsimp only at he
    simp only [best_fitGo]
    rw [if_neg, if_neg]
    · exact ih ib sb fun e2 h2 => h e2 (List.mem_cons_of_mem _ h2)
    · rintro ⟨h1, h2, h3⟩
      rcases he h1 with hlt | ⟨hgt, hle⟩
      · omega
      · simp only [better, decide_eq_true_eq] at h3
        omega
    · rintro ⟨h1, h2⟩
      rcases he h1 with hlt | ⟨hgt, -⟩ <;> omega

/-- The first free exact-size entry of the traversal is returned, whatever
the accumulator holds. -/
theorem best_fitGo_exact (size : Nat) :
    ∀ (l : List (Nat × Nat × Bool)) (best : Option (Nat × Nat)) (k i : Nat),
      l[k]? = some (i, size, false) →
      (∀ k2, k2 < k → ∀ e, l[k2]? = some e → e.2.2 = false → e.2.1 ≠ size) →
      best_fitGo size l best = some i := by
  intro l
  induction l with
  | nil => intro best k i hk _; simp at hk
  | cons e0 rest ih =>
    intro best k i hk hpre
    obtain ⟨i0, s0, u0⟩ := e0
    cases k with
    | zero =>
      rw [List.getElem?_cons_zero] at hk
      cases hk
      simp only [best_fitGo]
      rw [if_pos (by simp)]
    | succ k =>
      rw [List.getElem?_cons_succ] at hk
      have h0 := hpre 0 (Nat.succ_pos k) (i0, s0, u0) List.getElem?_cons_zero
      dsimp only at h0
      simp only [best_fitGo]
      rw [if_neg (by rintro ⟨h1, h2⟩; exact h0 h1 h2)]
      split
      · exact ih _ k i hk fun k2 hk2 e he =>
          hpre (k2 + 1) (by omega) e (by rw [List.getElem?_cons_succ]; exact he)
      · exact ih _ k i hk fun k2 hk2 e he =>
          hpre (k2 + 1) (by omega) e (by rw [List.getElem?_cons_succ]; exact he)

/-- The search comes back empty iff the accumulator is empty and every free
entry of the traversal is strictly smaller than the request. -/
theorem best_fitGo_none (size : Nat) :
    ∀ (l : List (Nat × Nat × Bool)) (best : Option (Nat × Nat)),
      (best_fitGo size l best = none ↔
        best = none ∧ ∀ e ∈ l, e.2.2 = false → e.2.1 < size) := by
  intro l
  induction l with
  | nil =>
    intro best
    constructor
    · intro h
      cases best with
      | none => exact ⟨rfl, by simp⟩
      | some p => simp [best_fitGo] at h
    · rintro ⟨hb, -⟩
      subst hb
      rfl
  | cons e0 rest ih =>
    intro best
    obtain ⟨i0, s0, u0⟩ := e0
    simp only [best_fitGo]
    by_cases hc1 : u0 = false ∧ s0 = size
    · rw [if_pos hc1]
      constructor
      · intro h; cases h
      · rintro ⟨-, hall⟩
        have := hall (i0, s0, u0) (List.mem_cons_self ..) hc1.1
        dsimp only at this
        omega
    · rw [if_neg hc1]
      by_cases hc2 : u0 = false ∧ size < s0 ∧ better best s0 = true
      · rw [if_pos hc2, ih]
        constructor
        · rintro ⟨hb, -⟩
          cases hb
        · rintro ⟨-, hall⟩
          have := hall (i0, s0, u0) (List.mem_cons_self ..) hc2.1
          dsimp only at this
          omega
      · rw [if_neg hc2, ih]
        constructor
        · rintro ⟨hb, hall⟩
          subst hb
          refine ⟨rfl, ?_⟩
          intro e2 he2 hu
          rcases List.mem_cons.mp he2 with he2 | he2
          · subst he2
            dsimp only at hu ⊢
            have hne : s0 ≠ size := fun h => hc1 ⟨hu, h⟩
            have hnlt : ¬ size < s0 := fun h => hc2 ⟨hu, h, by simp [better]⟩
            omega
          · exact hall e2 he2 hu
        · rintro ⟨hb, hall⟩
          exact ⟨hb, fun e2 he2 hu => hall e2 (List.mem_cons_of_mem _ he2) hu⟩

/-- Without an exact match, the search returns the earliest among the
smallest free entries strictly larger than the request, provided every
such entry beats the accumulator. -/
theorem best_fitGo_min (size : Nat) :
    ∀ (l : List (Nat × Nat × Bool)) (best : Option (Nat × Nat)) (k i s : Nat),
      l[k]? = some (i, s, false) → size < s →
      (∀ (k2 : Nat) (e : Nat × Nat × Bool),
        l[k2]? = some e → e.2.2 = false → e.2.1 ≠ size) →
      (∀ (k2 : Nat) (e : Nat × Nat × Bool),
        l[k2]? = some e → e.2.2 = false → size < e.2.1 →
        s < e.2.1 ∨ (s = e.2.1 ∧ k ≤ k2)) →
      (∀ ib sb, best = some (ib, sb) → s < sb) →
      best_fitGo size l best = some i := by
  intro l
  induction l with
  | nil => intro best k i s hk _ _ _ _; simp at hk
  | cons e0 rest ih =>
    intro best k i s hk hgt hnoex hmin hbest
    obtain ⟨i0, s0, u0⟩ := e0
    cases k with
    | zero =>
      rw [List.getElem?_cons_zero] at hk
      cases hk
      simp only [best_fitGo]
      rw [if_neg (by rintro ⟨-, h2⟩; omega), if_pos ?hB]
      case hB =>
        refine ⟨by simp, hgt, ?_⟩
        cases best with
        | none => rfl
        | some p =>
          obtain ⟨ib, sb⟩ := p
          simp only [better, decide_eq_true_eq]
          exact hbest ib sb rfl
      apply best_fitGo_keep
      intro e2 he2 hu
      rcases List.mem_iff_getElem?.mp he2 with ⟨k2, hk2⟩
      have h1 := hnoex (k2 + 1) e2 (by rw [List.getElem?_cons_succ]; exact hk2) hu
      by_cases hlt : size < e2.2.1
      · have h2 := hmin (k2 + 1) e2 (by rw [List.getElem?_cons_succ]; exact hk2) hu hlt
        right
        exact ⟨hlt, by omega⟩
      · left
        omega
    | succ k =>
      rw [List.getElem?_cons_succ] at hk
      simp only [best_fitGo]
      have hne : ¬ (u0 = false ∧ s0 = size) := by
        rintro ⟨h1, h2⟩
        exact hnoex 0 (i0, s0, u0) List.getElem?_cons_zero h1 h2
      rw [if_neg hne]
      have hshift1 : ∀ (k2 : Nat) (e : Nat × Nat × Bool),
          rest[k2]? = some e → e.2.2 = false → e.2.1 ≠ size :=
        fun k2 e he => hnoex (k2 + 1) e (by rw [List.getElem?_cons_succ]; exact he)
      have hshift2 : ∀ (k2 : Nat) (e : Nat × Nat × Bool),
          rest[k2]? = some e → e.2.2 = false → size < e.2.1 →
          s < e.2.1 ∨ (s = e.2.1 ∧ k ≤ k2) := by
        intro k2 e he hu hlt
        rcases hmin (k2 + 1) e (by rw [List.getElem?_cons_succ]; exact he) hu hlt with h | h
        · exact Or.inl h
        · exact Or.inr ⟨h.1, by omega⟩
      by_cases hc2 : u0 = false ∧ size < s0 ∧ better best s0 = true
      · rw [if_pos hc2]
        refine ih (some (i0, s0)) k i s hk hgt hshift1 hshift2 ?_
        intro ib sb hbe
        cases hbe
        rcases hmin 0 (i0, s0, u0) List.getElem?_cons_zero hc2.1 hc2.2.1 with h | h
        · simpa using h
        · dsimp only at h
          omega
      · rw [if_neg hc2]
        exact ih best k i s hk hgt hshift1 hshift2 hbest

end FL1

/-- The `explicit_free_list.c` search is the `free_list1.c` search run on a
traversal in which every entry is free: the free list only holds free
blocks. -/
theorem EFL.find_go_eq_best_fitGo (size : Nat) :
    ∀ (ps : List (Nat × Nat)) (best : Option (Nat × Nat)),
      EFL.find_go size ps best =
        FL1.best_fitGo size (ps.map fun p => (p.1, p.2, false)) best := by
  intro ps
  induction ps with
  | nil => intro best; rfl
  | cons p rest ih =>
    intro best
    obtain ⟨a, s⟩ := p
    simp only [EFL.find_go, FL1.best_fitGo, List.map_cons]
    by_cases h1 : s = size
    · rw [if_pos h1, if_pos (show True ∧ s = size from ⟨trivial, h1⟩)]
    · rw [if_neg h1, if_neg (show ¬ (True ∧ s = size) from fun h => h1 h.2)]
      by_cases h2 : size < s ∧ better best s = true
      · rw [if_pos h2,
          if_pos (show True ∧ size < s ∧ better best s = true from ⟨trivial, h2.1, h2.2⟩),
          ih]
      · rw [if_neg h2,
          if_neg (show ¬ (True ∧ size < s ∧ better best s = true) from
            fun h => h2 ⟨h.2.1, h.2.2⟩),
          ih]

/-- Claim **C5**.  Characterization of the best-fit search of `free_list1.c`
(`best_fitGo` over the traversal sequence of (index, size, used) entries)
and of `explicit_free_list.c` (`find_go` over the free-list traversal of
(address, size) pairs, all free).  In both: (a) the search returns none
iff no free entry is at least the requested size; (b) the first free
entry of exactly the requested size encountered in traversal order is
returned as soon as one exists; (c) with no exact match, the returned
entry is free, strictly larger than the request, no larger than any other
free fitting entry, and strictly smaller than any fitting entry seen
earlier in traversal order. -/
theorem claim_c5_best_fit (size : Nat) :
    (∀ l : List (Nat × Nat × Bool),
      (FL1.best_fitGo size l none = none ↔ ∀ e ∈ l, e.2.2 = false → e.2.1 < size) ∧
      (∀ (k i : Nat), l[k]? = some (i, size, false) →
        (∀ k2, k2 < k → ∀ (e : Nat × Nat × Bool),
          l[k2]? = some e → e.2.2 = false → e.2.1 ≠ size) →
        FL1.best_fitGo size l none = some i) ∧
      (∀ (k i s : Nat), l[k]? = some (i, s, false) → size < s →
        (∀ (k2 : Nat) (e : Nat × Nat × Bool),
          l[k2]? = some e → e.2.2 = false → e.2.1 ≠ size) →
        (∀ (k2 : Nat) (e : Nat × Nat × Bool),
          l[k2]? = some e → e.2.2 = false → size < e.2.1 →
          s < e.2.1 ∨ (s = e.2.1 ∧ k ≤ k2)) →
        FL1.best_fitGo size l none = some i)) ∧
    (∀ ps : List (Nat × Nat),
      (EFL.find_go size ps none = none ↔ ∀ e ∈ ps, e.2 < size) ∧
      (∀ (k a : Nat), ps[k]? = some (a, size) →
        (∀ k2, k2 < k → ∀ (e : Nat × Nat), ps[k2]? = some e → e.2 ≠ size) →
        EFL.find_go size ps none = some a) ∧
      (∀ (k a s : Nat), ps[k]? = some (a, s) → size < s →
        (∀ (k2 : Nat) (e : Nat × Nat), ps[k2]? = some e → e.2 ≠ size) →
        (∀ (k2 : Nat) (e : Nat × Nat), ps[k2]? = some e → size < e.2 →
          s < e.2 ∨ (s = e.2 ∧ k ≤ k2)) →
        EFL.find_go size ps none = some a)) := by
  constructor
  · intro l
    refine ⟨?_, ?_, ?_⟩
    · rw [FL1.best_fitGo_none size l none]
      simp
    · intro k i hk hpre
      exact FL1.best_fitGo_exact size l none k i hk hpre
    · intro k i s hk hgt hnoex hmin
      exact FL1.best_fitGo_min size l none k i s hk hgt hnoex hmin
        (fun ib sb h => by cases h)
  · intro ps
    have hmap : ∀ (k : Nat) (e : Nat × Nat × Bool),
        (ps.map fun p => (p.1, p.2, false))[k]? = some e →
        ∃ p : Nat × Nat, ps[k]? = some p ∧ e = (p.1, p.2, false) := by
      intro k e he
      rw [List.getElem?_map] at he
      cases hp : ps[k]? with
      | none => rw [hp] at he; cases he
      | some p =>
        rw [hp] at he
        cases he
        exact ⟨p, rfl, rfl⟩
    refine ⟨?_, ?_, ?_⟩
    · rw [EFL.find_go_eq_best_fitGo, FL1.best_fitGo_none]
      constructor
      · rintro ⟨-, h⟩
        intro e he
        simpa using h (e.1, e.2, false) (List.mem_map_of_mem _ he) rfl
      · intro h
        refine ⟨rfl, ?_⟩
        intro e2 he2 hu
        rcases List.mem_map.mp he2 with ⟨p, hp, rfl⟩
        simpa using h p hp
    · intro k a hk hpre
      rw [EFL.find_go_eq_best_fitGo]
      refine FL1.best_fitGo_exact size _ none k a ?_ ?_
      · rw [List.getElem?_map, hk]
        rfl
      · intro k2 hk2 e he hu
        rcases hmap k2 e he with ⟨p, hp, rfl⟩
        exact hpre k2 hk2 p hp
    · intro k a s hk hgt hnoex hmin
      rw [EFL.find_go_eq_best_fitGo]
      refine FL1.best_fitGo_min size _ none k a s ?_ hgt ?_ ?_
        (fun ib sb h => by cases h)
      · rw [List.getElem?_map, hk]
        rfl
      · intro k2 e he hu
        rcases hmap k2 e he with ⟨p, hp, rfl⟩
        exact hnoex k2 p hp
      · intro k2 e he hu hlt
        rcases hmap k2 e he with ⟨p, hp, rfl⟩
        exact hmin k2 p hp hlt

/-- Witness for C5: on the traversal `(4,16,free), (6,8,used), (9,24,free)`
with request 8 the used exact-size block is skipped and the smallest
fitting free block (size 16, seen first) wins; on the explicit free list
`(11,8), (5,16)` the exact match at the head is returned at once. -/
theorem claim_c5_witness :
    FL1.best_fitGo 8 [(4, 16, false), (6, 8, true), (9, 24, false)] none = some 4 ∧
    EFL.find_go 8 [(11, 8), (5, 16)] none = some 11 := by
  constructor
  · refine (claim_c5_best_fit 8).1 [(4, 16, false), (6, 8, true), (9, 24, false)]
      |>.2.2 0 4 16 (by decide) (by decide) ?_ ?_
    · intro k2 e he hu
      rcases k2 with _ | _ | _ | n
      · rw [List.getElem?_cons_zero] at he
        cases he
        decide
      · rw [List.getElem?_cons_succ, List.getElem?_cons_zero] at he
        cases he
        exact absurd hu (by decide)
      · rw [List.getElem?_cons_succ, List.getElem?_cons_succ,
          List.getElem?_cons_zero] at he
        cases he
        decide
      · simp at he
    · intro k2 e he hu hlt
      rcases k2 with _ | _ | _ | n
      · rw [List.getElem?_cons_zero] at he
        cases he
        decide
      · rw [List.getElem?_cons_succ, List.getElem?_cons_zero] at he
        cases he
        exact absurd hu (by decide)
      · rw [List.getElem?_cons_succ, List.getElem?_cons_succ,
          List.getElem?_cons_zero] at he
        cases he
        decide
      · simp at he
  · exact (claim_c5_best_fit 8).2 [(11, 8), (5, 16)]
      |>.2.1 0 11 (by decide)
      (fun k2 hk2 e _ => absurd hk2 (Nat.not_lt_zero k2))

/-! ## Mid-list surgery and address lemmas (for C2 and C6) -/

/-- The element sitting right after a prefix of known length. -/
theorem getElem_append_middle {α : Type} (l1 : List α) (x : α) (l2 : List α) :
    (l1 ++ x :: l2)[l1.length]? = some x := by
  induction l1 with
  | nil => simp
  | cons h t ih => simpa using ih

/-- Setting the element right after a prefix of known length. -/
theorem set_append_middle {α : Type} (l1 : List α) (x y : α) (l2 : List α) :
    (l1 ++ x :: l2).set l1.length y = l1 ++ y :: l2 := by
  induction l1 with
  | nil => rfl
  | cons h t ih => simp [ih]

namespace FL1

theorem addr_zero (l : List Block) : addr l 0 = 0 := by
  cases l <;> rfl

theorem addr_cons_succ (b : Block) (rest : List Block) (i : Nat) :
    addr (b :: rest) (i + 1) = 8 + b.size + addr rest i := rfl

/-- Block addresses only depend on the blocks before them. -/
theorem addr_append_le (l1 l2 : List Block) :
    ∀ j, j ≤ l1.length → addr (l1 ++ l2) j = addr l1 j := by
  induction l1 with
  | nil =>
    intro j hj
    have hj0 : j = 0 := by simpa using hj
    subst hj0
    simp [addr_zero]
  | cons b t ih =>
    intro j hj
    cases j with
    | zero => simp [addr_zero]
    | succ j =>
      simp only [List.cons_append, addr_cons_succ]
      rw [ih j (by simpa using hj)]

/-- Address of the block following a prefix-ending block. -/
theorem addr_succ_mid (l1 : List Block) (x : Block) (l2 : List Block) :
    addr (l1 ++ x :: l2) (l1.length + 1) = addr l1 l1.length + 8 + x.size := by
  induction l1 with
  | nil =>
    simp only [List.nil_append, List.length_nil, addr_cons_succ, addr_zero]
    omega
  | cons b t ih =>
    simp only [List.cons_append, List.length_cons, addr_cons_succ]
    rw [ih]
    omega

theorem addr_take (hp : List Block) (i : Nat) (h : i ≤ hp.length) :
    addr hp i = addr (hp.take i) i := by
  conv_lhs => rw [← List.take_append_drop i hp]
  rw [addr_append_le _ _ i (by simp [List.length_take]; omega)]

/-- Lemma: `idxOfAddr` inverts `addr` on valid block indices. -/
theorem idxOfAddr_addr (hp : List Block) (i : Nat) (h : i < hp.length) :
    idxOfAddr hp (addr hp i) = some i := by
  induction hp generalizing i with
  | nil => simp at h
  | cons b rest ih =>
    cases i with
    | zero => rfl
    | succ i =>
      have h2 : i < rest.length := by simpa using h
      rw [addr_cons_succ]
      simp only [idxOfAddr]
      rw [if_neg (by omega), if_neg (by omega),
        show 8 + b.size + addr rest i - (8 + b.size) = addr rest i by omega,
        ih i h2]
      rfl

/-- Lemma: `set_used` on the block sitting right after a prefix of known length. -/
theorem set_used_middle (l1 : List Block) (x : Block) (l2 : List Block) (u : Bool) :
    set_used (l1 ++ x :: l2) l1.length u = l1 ++ ⟨x.size, u, x.last⟩ :: l2 := by
  unfold set_used
  rw [getElem_append_middle]
  simp [set_append_middle]

end FL1

namespace EFL

theorem eaddr_zero (l : List Nat) : addr l 0 = 0 := by
  cases l <;> rfl

theorem eaddr_cons_succ (s : Nat) (rest : List Nat) (i : Nat) :
    addr (s :: rest) (i + 1) = 24 + s + addr rest i := rfl

theorem eaddr_append_le (l1 l2 : List Nat) :
    ∀ j, j ≤ l1.length → addr (l1 ++ l2) j = addr l1 j := by
  induction l1 with
  | nil =>
    intro j hj
    have hj0 : j = 0 := by simpa using hj
    subst hj0
    simp [eaddr_zero]
  | cons s t ih =>
    intro j hj
    cases j with
    | zero => simp [eaddr_zero]
    | succ j =>
      simp only [List.cons_append, eaddr_cons_succ]
      rw [ih j (by simpa using hj)]

theorem eaddr_succ_mid (l1 : List Nat) (x : Nat) (l2 : List Nat) :
    addr (l1 ++ x :: l2) (l1.length + 1) = addr l1 l1.length + 24 + x := by
  induction l1 with
  | nil =>
    simp only [List.nil_append, List.length_nil, eaddr_cons_succ, eaddr_zero]
    omega
  | cons s t ih =>
    simp only [List.cons_append, List.length_cons, eaddr_cons_succ]
    rw [ih]
    omega

theorem eaddr_take (hp : List Nat) (i : Nat) (h : i ≤ hp.length) :
    addr hp i = addr (hp.take i) i := by
  conv_lhs => rw [← List.take_append_drop i hp]
  rw [eaddr_append_le _ _ i (by simp [List.length_take]; omega)]

theorem eidxOfAddr_addr (hp : List Nat) (i : Nat) (h : i < hp.length) :
    idxOfAddr hp (addr hp i) = some i := by
  induction hp generalizing i with
  | nil => simp at h
  | cons s rest ih =>
    cases i with
    | zero => rfl
    | succ i =>
      have h2 : i < rest.length := by simpa using h
      rw [eaddr_cons_succ]
      simp only [idxOfAddr]
      rw [if_neg (by omega), if_neg (by omega),
        show 24 + s + addr rest i - (24 + s) = addr rest i by omega,
        ih i h2]
      rfl

/-- Lemma: `insertAfter` really adds the new element when the anchor is present. -/
theorem insertAfter_mem (fl : List Nat) (a n : Nat) (h : a ∈ fl) :
    n ∈ insertAfter fl a n := by
  induction fl with
  | nil => cases h
  | cons x xs ih =>
    unfold insertAfter
    by_cases hx : x = a
    · rw [if_pos hx]
      exact List.mem_cons_of_mem _ (List.mem_cons_self ..)
    · rw [if_neg hx]
      rcases List.mem_cons.mp h with h1 | h1
      · exact absurd h1.symm hx
      · exact List.mem_cons_of_mem _ (ih h1)

end EFL

/-! ## Claim C2 — coalescing (amended) -/

/-- Claim **C2** (amended).  Coalescing at free is local and single-step.  In
`free_list1.c`, when `free_` is applied to the payload of block `i` whose
next-by-address neighbour exists and is free, the two blocks are merged
before the call returns: the result keeps the blocks before `i`, replaces
blocks `i` and `i+1` by one unused block of size `size_i + size_{i+1} + 8`
(the absorbed header), and keeps the blocks after — the last flag coming
from the `nextb(nextb(blk))` re-read.  In `explicit_free_list.c`, freeing
`m1` after its address-adjacent neighbour `m2` was freed merges both with
the former list head into one 40-byte free block, the sole free-list entry
(the source's own test scenario, `explicit_free_list.c:355-368`).
Counterexample `claim_c2_counterexample` shows adjacent free pairs can
survive a free, which is what the original claim rules out. -/
theorem claim_c2_amended :
    (∀ (σ : FL1.State) (i : Nat) (b c : FL1.Block),
      σ.hp[i]? = some b → σ.hp[i + 1]? = some c → b.last = false → c.used = false →
      (FL1.free_ σ (FL1.addr σ.hp i + 8)).hp =
        σ.hp.take i ++
          [⟨b.size + c.size + 8, false,
            if (match σ.hp[i + 2]? with | some d => d.last | none => true)
            then true else b.last⟩] ++
          σ.hp.drop (i + 2)) ∧
    EFL.wfree ⟨[8, 8], [32], some 0⟩ 24 = ⟨[40], [0], some 0⟩ := by
  refine ⟨?_, by decide⟩
  intro σ i b c hb hc hbl hcu
  have hlen : i < σ.hp.length := (List.getElem?_eq_some_iff.mp hb).1
  have htake : (σ.hp.take i).length = i := by
    simp [List.length_take]
    omega
  have hfe : FL1.free_ σ (FL1.addr σ.hp i + 8) =
      ⟨FL1.set_used
        (if FL1.can_coalesceAt σ.hp i then FL1.coalesce σ.hp i else σ.hp) i false,
        σ.top⟩ := by
    unfold FL1.free_
    rw [show FL1.addr σ.hp i + 8 - 8 = FL1.addr σ.hp i by omega,
      FL1.idxOfAddr_addr σ.hp i hlen]
  rw [hfe]
  have hcc : FL1.can_coalesceAt σ.hp i = true := by
    unfold FL1.can_coalesceAt
    rw [hb, hc]
    simp [hbl, hcu]
  have hco : FL1.coalesce σ.hp i =
      σ.hp.take i ++
        [⟨b.size + c.size + 8, b.used,
          if (match σ.hp[i + 2]? with | some d => d.last | none => true)
          then true else b.last⟩] ++
        σ.hp.drop (i + 2) := by
    unfold FL1.coalesce
    rw [hb, hc]
  rw [if_pos hcc]
  dsimp only
  rw [hco, List.append_assoc, List.singleton_append]
  have hsm := FL1.set_used_middle (σ.hp.take i)
    (⟨b.size + c.size + 8, b.used,
      if (match σ.hp[i + 2]? with | some d => d.last | none => true)
      then true else b.last⟩)
    (σ.hp.drop (i + 2)) false
  rw [htake] at hsm
  rw [hsm]
  simp

/-- Witness for C2 (amended): two blocks of size 8, the first used and the
second free; freeing the first one's payload (at address 8) merges them
into a single free block of size 24 whose last flag is set. -/
theorem claim_c2_witness :
    (FL1.free_ ⟨[⟨8, true, false⟩, ⟨8, false, true⟩], none⟩ 8).hp =
      [⟨24, false, true⟩] := by
  have h := claim_c2_amended.1 ⟨[⟨8, true, false⟩, ⟨8, false, true⟩], none⟩ 0
    ⟨8, true, false⟩ ⟨8, false, true⟩ (by decide) (by decide) (by decide) (by decide)
  simpa using h

/-! ## Claim C6 — splitting -/

/-- Claim **C6**.  Splitting, in both cited variants.  `free_list1.c`
(`header_size = 8`, `W = 8`): `can_split` holds exactly when
`S ≥ R + 8 + 8`, so a block one byte short (`S = R + 15`) is not split;
after `split_block` the head block (same address) has size `R` and keeps
its flags, and the tail block sits at index `i+1`, at address
`addr i + 8 + R`, with size `S - 8 - R`, marked unused.
`explicit_free_list.c` (`header_size = 24`, `W = 8`): `split_block` leaves
everything unchanged when `S < R + 24 + 8` and otherwise shrinks the head
to `R` and creates the tail at address `addr i + 24 + R` with size
`S - 24 - R`, splicing it into the free list (unused = listed) right
after the head. -/
theorem claim_c6_split :
    (∀ (blk : FL1.Block) (R : Nat),
      FL1.can_split blk R = true ↔ R + 8 + 8 ≤ blk.size) ∧
    (∀ (R : Nat) (u l : Bool), FL1.can_split ⟨R + 15, u, l⟩ R = false) ∧
    (∀ (hp : List FL1.Block) (i R : Nat) (b : FL1.Block), hp[i]? = some b →
      FL1.can_split b R = true →
      (FL1.split_block hp i R)[i]? = some ⟨R, b.used, b.last⟩ ∧
      (FL1.split_block hp i R)[i + 1]? = some ⟨b.size - (8 + R), false, b.last⟩ ∧
      FL1.addr (FL1.split_block hp i R) (i + 1) = FL1.addr hp i + 8 + R ∧
      (FL1.split_block hp i R).length = hp.length + 1) ∧
    (∀ (hp fl : List Nat) (i R S : Nat), hp[i]? = some S →
      (S < R + 24 + 8 → EFL.split_block hp fl (EFL.addr hp i) R = (hp, fl)) ∧
      (R + 24 + 8 ≤ S →
        (EFL.split_block hp fl (EFL.addr hp i) R).1 =
          hp.take i ++ [R, S - (24 + R)] ++ hp.drop (i + 1) ∧
        EFL.addr (hp.take i ++ [R, S - (24 + R)] ++ hp.drop (i + 1)) (i + 1) =
          EFL.addr hp i + 24 + R ∧
        (EFL.addr hp i ∈ fl →
          EFL.addr hp i + 24 + R ∈ (EFL.split_block hp fl (EFL.addr hp i) R).2))) := by
  refine ⟨?_, ?_, ?_, ?_⟩
  · intro blk R
    unfold FL1.can_split
    simp
    omega
  · intro R u l
    unfold FL1.can_split
    simp
    omega
  · intro hp i R b hb hcs
    have hlen : i < hp.length := (List.getElem?_eq_some_iff.mp hb).1
    have htake : (hp.take i).length = i := by
      simp [List.length_take]
      omega
    have hsp : FL1.split_block hp i R =
        hp.take i ++ [⟨R, b.used, b.last⟩, ⟨b.size - (8 + R), false, b.last⟩]
          ++ hp.drop (i + 1) := by
      unfold FL1.split_block
      rw [hb]
    have hflat : FL1.split_block hp i R =
        hp.take i ++ (⟨R, b.used, b.last⟩ : FL1.Block) ::
          (⟨b.size - (8 + R), false, b.last⟩ : FL1.Block) :: hp.drop (i + 1) := by
      rw [hsp]
      simp
    have hflat2 : FL1.split_block hp i R =
        (hp.take i ++ [⟨R, b.used, b.last⟩]) ++
          (⟨b.size - (8 + R), false, b.last⟩ : FL1.Block) :: hp.drop (i + 1) := by
      rw [hflat]
      simp
    refine ⟨?_, ?_, ?_, ?_⟩
    · have hg := getElem_append_middle (hp.take i) (⟨R, b.used, b.last⟩ : FL1.Block)
        ((⟨b.size - (8 + R), false, b.last⟩ : FL1.Block) :: hp.drop (i + 1))
      rw [htake] at hg
      rw [hflat]
      exact hg
    · have hg := getElem_append_middle
        (hp.take i ++ [(⟨R, b.used, b.last⟩ : FL1.Block)])
        (⟨b.size - (8 + R), false, b.last⟩ : FL1.Block) (hp.drop (i + 1))
      rw [show (hp.take i ++ [(⟨R, b.used, b.last⟩ : FL1.Block)]).length = i + 1 from by
        simp [htake]] at hg
      rw [hflat2]
      exact hg
    · rw [hflat]
      have h1 := FL1.addr_succ_mid (hp.take i) ⟨R, b.used, b.last⟩
        ((⟨b.size - (8 + R), false, b.last⟩ : FL1.Block) :: hp.drop (i + 1))
      rw [htake] at h1
      rw [h1, ← FL1.addr_take hp i (by omega)]
    · rw [hsp]
      simp [List.length_take, List.length_drop]
      omega
  · intro hp fl i R S hb
    have hlen : i < hp.length := (List.getElem?_eq_some_iff.mp hb).1
    have htake : (hp.take i).length = i := by
      simp [List.length_take]
      omega
    have hidx : EFL.idxOfAddr hp (EFL.addr hp i) = some i :=
      EFL.eidxOfAddr_addr hp i hlen
    constructor
    · intro hsmall
      unfold EFL.split_block
      rw [hidx]
      dsimp only
      rw [hb]
      simp only [Option.getD_some]
      rw [if_pos (by omega)]
    · intro hbig
      have hsp : EFL.split_block hp fl (EFL.addr hp i) R =
          (hp.take i ++ [R, S - (24 + R)] ++ hp.drop (i + 1),
            EFL.insertAfter fl (EFL.addr hp i) (EFL.addr hp i + 24 + R)) := by
        unfold EFL.split_block
        rw [hidx]
        dsimp only
        rw [hb]
        simp only [Option.getD_some]
        rw [if_neg (by omega)]
      refine ⟨by rw [hsp], ?_, ?_⟩
      · have h1 := EFL.eaddr_succ_mid (hp.take i) R ((S - (24 + R)) :: hp.drop (i + 1))
        rw [htake] at h1
        rw [show hp.take i ++ [R, S - (24 + R)] ++ hp.drop (i + 1) =
            hp.take i ++ R :: ((S - (24 + R)) :: hp.drop (i + 1)) from by simp,
          h1, ← EFL.eaddr_take hp i (by omega)]
      · intro hmem
        rw [hsp]
        exact EFL.insertAfter_mem fl _ _ hmem

/-- Witness for C6: a free 40-byte block split for a 16-byte request in
`free_list1.c` (head 16, tail 16 at address 24), and a 64-byte block split
for a 16-byte request in `explicit_free_list.c` (head 16, tail of 24 bytes
at address 40, spliced into the free list). -/
theorem claim_c6_witness :
    ((FL1.split_block [⟨40, false, true⟩] 0 16)[0]? = some ⟨16, false, true⟩ ∧
      (FL1.split_block [⟨40, false, true⟩] 0 16)[1]? =
        some ⟨(⟨40, false, true⟩ : FL1.Block).size - (8 + 16), false, true⟩ ∧
      FL1.addr (FL1.split_block [⟨40, false, true⟩] 0 16) 1 =
        FL1.addr [⟨40, false, true⟩] 0 + 8 + 16 ∧
      (FL1.split_block [⟨40, false, true⟩] 0 16).length = 1 + 1) ∧
    (EFL.split_block [64] [0] (EFL.addr [64] 0) 16).1 =
      [64].take 0 ++ [16, 64 - (24 + 16)] ++ [64].drop 1 ∧
    EFL.addr [64] 0 + 24 + 16 ∈ (EFL.split_block [64] [0] (EFL.addr [64] 0) 16).2 :=
  ⟨claim_c6_split.2.2.1 [⟨40, false, true⟩] 0 16 ⟨40, false, true⟩ (by decide) (by decide),
   ((claim_c6_split.2.2.2 [64] [0] 0 16 64 (by decide)).2 (by norm_num)).1,
   ((claim_c6_split.2.2.2 [64] [0] 0 16 64 (by decide)).2 (by norm_num)).2.2 (by decide)⟩

/-! ## Claim C9 — reallocate when the internal allocation fails -/

/-- A null return from `alloc` only happens on the `size <= 0` early exit,
which touches nothing: the state comes back unchanged. -/
theorem EFL.alloc_none {σ σ2 : EFL.State} {ok : Bool} {z : Int}
    (h : EFL.alloc σ ok z = .ret none σ2) : σ2 = σ := by
  unfold EFL.alloc at h
  dsimp only [] at h
  split at h
  · cases h
    rfl
  · split at h
    · cases h
    · split at h
      · cases h
      · cases h

/-- Claim **C9**.  For a live payload `p` and a request strictly larger than the
block's current size, if the allocation `realloc` performs internally
reports failure (returns NULL), then `realloc` returns NULL, the engine
state is exactly the input state — so the block at `p - 24` keeps its size,
stays off the free list (used) — and the write log is empty, so every
payload byte of the original block is unmodified. -/
theorem claim_c9_realloc_fail (σ : EFL.State) (ok : Bool) (p size : Nat)
    (σ2 : EFL.State)
    (hbig : EFL.sizeAt σ.hp (p - 24) < size)
    (hfail : EFL.malloc σ ok size = .ret none σ2) :
    EFL.realloc σ ok (some p) size = .ret none σ [] := by
  have hσ2 : σ2 = σ := EFL.alloc_none hfail
  subst hσ2
  simp only [EFL.realloc]
  rw [if_neg (by omega), hfail]

/-- Witness for C9: one live 8-byte block; `realloc(p, 2^63)` makes the
internal `malloc` receive a request that wraps to a non-positive
`ptrdiff_t`, so it returns NULL and `realloc` hands back NULL with the
state untouched and nothing written. -/
theorem claim_c9_witness :
    EFL.realloc ⟨[8], [], some 0⟩ true (some 24) (2 ^ 63) =
      .ret none ⟨[8], [], some 0⟩ [] :=
  claim_c9_realloc_fail ⟨[8], [], some 0⟩ true 24 (2 ^ 63) ⟨[8], [], some 0⟩
    (by decide) (by decide)

/-- Witness for C10: the `SMALL` bucket holds a free 128-byte block that
fits the request `alloc(8)`, yet the empty `TINY` bucket makes `alloc`
grow the arena. -/
theorem claim_c10_witness :
    SFL.alloc ⟨[⟨128, false⟩], [[], [0], [], [], []], some 0⟩ true 8 =
      .ret (some 176)
        ⟨[⟨128, false⟩, ⟨8, true⟩], [[1], [0], [], [], []], some 0⟩ ∧
    ((⟨[⟨128, false⟩], [[], [0], [], [], []], some 0⟩ : SFL.State).hp[0]?.getD
        (⟨0, true⟩ : SFL.Blk)).used = false ∧
    (8 : Nat) ≤ 128 ∧
    0 ∈ (⟨[⟨128, false⟩], [[], [0], [], [], []], some 0⟩ : SFL.State).buckets.getD 1 [] := by
  refine ⟨?_, by decide, by decide, by decide⟩
  have h := claim_c10_single_bucket ⟨[⟨128, false⟩], [[], [0], [], [], []], some 0⟩ 8
    (by decide) (by decide)
  rw [h]
  decide
